import Mathlib

/-!
Verification of the two-pass diff materialization protocol and the revision
resolution dispatch of the git2r binding layer (src/git2r_diff.c and
src/git2r_revparse.c).

The underlying libgit2 traversal primitive (git_diff_foreach) walks a diff
in a fixed order: for each file delta it fires the file callback, then for
each hunk of that file the hunk callback, then for each line of that hunk
the line callback.  We embed a diff as the nested structure the traversal
walks (files, each with hunks, each with lines) and the traversal itself as
a left fold over the induced event stream.  The R-side vectors written by
the callbacks are embedded as Lean lists of Option cells (an unwritten slot
of an R VECSXP allocated with allocVector holds R_NilValue, embedded as
none), and SET_VECTOR_ELT as List.set.
-/

/-- One line of a diff hunk, mirroring the fields of git_diff_line read by
the callbacks (origin, old_lineno, new_lineno, num_lines, content and
content_len). -/
structure LineInfo where
  origin : Int
  old_lineno : Int
  new_lineno : Int
  num_lines : Int
  content : String
  content_len : Nat
deriving DecidableEq

/-- The per-hunk header data, mirroring the fields of git_diff_hunk read by
the callbacks. -/
structure HunkInfo where
  old_start : Int
  old_lines : Int
  new_start : Int
  new_lines : Int
  header : String
deriving DecidableEq

/-- A hunk together with the lines the traversal reports inside it. -/
structure Hunk where
  info : HunkInfo
  lines : List LineInfo
deriving DecidableEq

/-- The per-file delta data, mirroring the old_file.path and new_file.path
fields of git_diff_delta read by the file callback. -/
structure DeltaInfo where
  old_path : String
  new_path : String
deriving DecidableEq

/-- A file delta together with the hunks the traversal reports inside it. -/
structure FileD where
  delta : DeltaInfo
  hunks : List Hunk
deriving DecidableEq

/-- A diff is the ordered sequence of file deltas the traversal walks. -/
abbrev Diff := List FileD

/-- One callback invocation of git_diff_foreach (the binary callback is
passed as NULL by both passes, so no binary events occur). -/
inductive DiffEvent where
  | file (d : DeltaInfo)
  | hunk (h : HunkInfo)
  | line (l : LineInfo)
deriving DecidableEq

/-- Event stream of a single hunk: its hunk callback followed by one line
callback per line. -/
def hunkEvents (h : Hunk) : List DiffEvent :=
  DiffEvent.hunk h.info :: h.lines.map DiffEvent.line

/-- Event stream of a list of hunks, in traversal order. -/
def hunksEvents : List Hunk → List DiffEvent
  | [] => []
  | h :: hs => hunkEvents h ++ hunksEvents hs

/-- Event stream of a single file: its file callback followed by its
hunk events. -/
def fileEvents (f : FileD) : List DiffEvent :=
  DiffEvent.file f.delta :: hunksEvents f.hunks

/-- Event stream git_diff_foreach fires for a whole diff. -/
def diffEvents : Diff → List DiffEvent
  | [] => []
  | f :: fs => fileEvents f ++ diffEvents fs

/-! ## The counting pass (git2r_diff_count) -/

/-- The git2r_diff_count_payload structure. -/
structure CountPayload where
  num_files : Nat
  max_hunks : Nat
  max_lines : Nat
  num_hunks : Nat
  num_lines : Nat
deriving DecidableEq

/-- Embeds git2r_diff_count_file_cb: count the file, reset the per-file
hunk counter and the per-hunk line counter. -/
def git2r_diff_count_file_cb (n : CountPayload) : CountPayload :=
  { n with num_files := n.num_files + 1, num_hunks := 0, num_lines := 0 }

/-- Embeds git2r_diff_count_hunk_cb: count the hunk, update the running
maximum, reset the line counter. -/
def git2r_diff_count_hunk_cb (n : CountPayload) : CountPayload :=
  let n1 := { n with num_hunks := n.num_hunks + 1 }
  let n2 := if n1.num_hunks > n1.max_hunks then { n1 with max_hunks := n1.num_hunks } else n1
  { n2 with num_lines := 0 }

/-- Embeds git2r_diff_count_line_cb: count the line and update the running
maximum. -/
def git2r_diff_count_line_cb (n : CountPayload) : CountPayload :=
  let n1 := { n with num_lines := n.num_lines + 1 }
  if n1.num_lines > n1.max_lines then { n1 with max_lines := n1.num_lines } else n1

/-- Dispatch of one traversal event to the counting callbacks. -/
def countStep (n : CountPayload) : DiffEvent → CountPayload
  | .file _ => git2r_diff_count_file_cb n
  | .hunk _ => git2r_diff_count_hunk_cb n
  | .line _ => git2r_diff_count_line_cb n

/-- The counting traversal over an event stream. -/
def runCount (evs : List DiffEvent) (n : CountPayload) : CountPayload :=
  evs.foldl countStep n

/-- Embeds git2r_diff_count.  The foreach traversal itself may fail (an
external condition, passed in as traversalErr); in that case the function
returns -1 and writes none of the three out-parameters, which we embed by
returning Except.error (-1) carrying no triple.  On success it returns 0
and the three bounds, embedded as Except.ok. -/
def git2r_diff_count (d : Diff) (traversalErr : Option Int) : Except Int (Nat × Nat × Nat) :=
  match traversalErr with
  | some _ => Except.error (-1)
  | none =>
    let n := runCount (diffEvents d) ⟨0, 0, 0, 0, 0⟩
    Except.ok (n.num_files, n.max_hunks, n.max_lines)

/-! ## Specification-side quantities for the counting pass -/

/-- Maximum of a list of naturals (0 for the empty list). -/
def listMax : List Nat → Nat
  | [] => 0
  | a :: l => max a (listMax l)

/-- The number of files in a diff, as the spec states it. -/
def specNumFiles (d : Diff) : Nat := d.length

/-- The number of hunks in the largest file of a diff, as the spec states
it. -/
def specMaxHunks (d : Diff) : Nat :=
  listMax (d.map (fun f => f.hunks.length))

/-- The number of lines in the largest hunk of a diff, as the spec states
it (maximum over all hunks of all files). -/
def specMaxLines (d : Diff) : Nat :=
  listMax (d.map (fun f => listMax (f.hunks.map (fun h => h.lines.length))))

/-! ## Counting pass lemmas -/

theorem le_listMax_of_mem {a : Nat} {l : List Nat} (h : a ∈ l) : a ≤ listMax l := by
  induction l with
  | nil => cases h
  | cons b l ih =>
    rcases List.mem_cons.mp h with h1 | h2
    · subst h1; exact Nat.le_max_left _ _
    · exact Nat.le_trans (ih h2) (Nat.le_max_right _ _)

theorem runCount_append (l1 l2 : List DiffEvent) (n : CountPayload) :
    runCount (l1 ++ l2) n = runCount l2 (runCount l1 n) := by
  simp [runCount, List.foldl_append]

theorem count_line_cb_eq (nf mh ml nh nl : Nat) :
    git2r_diff_count_line_cb ⟨nf, mh, ml, nh, nl⟩ = ⟨nf, mh, max ml (nl + 1), nh, nl + 1⟩ := by
  simp only [git2r_diff_count_line_cb]
  split
  all_goals simp_all [CountPayload.mk.injEq]
  all_goals omega

theorem count_hunk_cb_eq (nf mh ml nh nl : Nat) :
    git2r_diff_count_hunk_cb ⟨nf, mh, ml, nh, nl⟩ = ⟨nf, max mh (nh + 1), ml, nh + 1, 0⟩ := by
  simp only [git2r_diff_count_hunk_cb]
  split
  all_goals simp_all [CountPayload.mk.injEq]
  all_goals omega

theorem count_file_cb_eq (nf mh ml nh nl : Nat) :
    git2r_diff_count_file_cb ⟨nf, mh, ml, nh, nl⟩ = ⟨nf + 1, mh, ml, 0, 0⟩ := rfl

theorem runCount_lines (ls : List LineInfo) (nf mh ml nh nl : Nat) (h : nl ≤ ml) :
    runCount (ls.map DiffEvent.line) ⟨nf, mh, ml, nh, nl⟩ =
      ⟨nf, mh, max ml (nl + ls.length), nh, nl + ls.length⟩ := by
  induction ls generalizing ml nl with
  | nil =>
    simp only [List.map_nil, runCount, List.foldl_nil]
    rw [CountPayload.mk.injEq]
    refine ⟨?_, ?_, ?_, ?_, ?_⟩
    all_goals simp only [List.length_nil]
    all_goals omega
  | cons l ls ih =>
    have step : runCount ((l :: ls).map DiffEvent.line) (⟨nf, mh, ml, nh, nl⟩ : CountPayload) =
        runCount (ls.map DiffEvent.line) (git2r_diff_count_line_cb ⟨nf, mh, ml, nh, nl⟩) := by
      simp [runCount, countStep]
    rw [step, count_line_cb_eq, ih _ _ (by omega)]
    rw [CountPayload.mk.injEq]
    refine ⟨?_, ?_, ?_, ?_, ?_⟩
    all_goals simp only [List.length_cons]
    all_goals omega

theorem runCount_hunk (h : Hunk) (nf mh ml nh nl : Nat) :
    runCount (hunkEvents h) ⟨nf, mh, ml, nh, nl⟩ =
      ⟨nf, max mh (nh + 1), max ml h.lines.length, nh + 1, h.lines.length⟩ := by
  have step : runCount (hunkEvents h) (⟨nf, mh, ml, nh, nl⟩ : CountPayload) =
      runCount (h.lines.map DiffEvent.line) (git2r_diff_count_hunk_cb ⟨nf, mh, ml, nh, nl⟩) := by
    simp [hunkEvents, runCount, countStep]
  rw [step, count_hunk_cb_eq, runCount_lines _ _ _ _ _ _ (Nat.zero_le _)]
  rw [CountPayload.mk.injEq]
  refine ⟨?_, ?_, ?_, ?_, ?_⟩
  all_goals omega

theorem runCount_hunks (hs : List Hunk) (nf mh ml nh nl : Nat) (hn : nh ≤ mh) :
    ∃ nl2, runCount (hunksEvents hs) ⟨nf, mh, ml, nh, nl⟩ =
      ⟨nf, max mh (nh + hs.length),
        max ml (listMax (hs.map (fun h => h.lines.length))), nh + hs.length, nl2⟩ := by
  induction hs generalizing mh ml nh nl with
  | nil =>
    refine ⟨nl, ?_⟩
    simp only [hunksEvents, runCount, List.foldl_nil, List.map_nil, listMax, List.length_nil]
    rw [CountPayload.mk.injEq]
    refine ⟨?_, ?_, ?_, ?_, ?_⟩
    all_goals omega
  | cons h hs ih =>
    have step : runCount (hunksEvents (h :: hs)) (⟨nf, mh, ml, nh, nl⟩ : CountPayload) =
        runCount (hunksEvents hs) (runCount (hunkEvents h) ⟨nf, mh, ml, nh, nl⟩) := by
      simp [hunksEvents, runCount_append]
    rw [step, runCount_hunk]
    obtain ⟨nl2, hrec⟩ := ih (max mh (nh + 1)) (max ml h.lines.length) (nh + 1)
      h.lines.length (by omega)
    refine ⟨nl2, ?_⟩
    rw [hrec]
    simp only [List.map_cons, List.length_cons, listMax]
    rw [CountPayload.mk.injEq]
    refine ⟨?_, ?_, ?_, ?_, ?_⟩
    all_goals omega

theorem runCount_file (f : FileD) (nf mh ml nh nl : Nat) :
    ∃ nh2 nl2, runCount (fileEvents f) ⟨nf, mh, ml, nh, nl⟩ =
      ⟨nf + 1, max mh f.hunks.length,
        max ml (listMax (f.hunks.map (fun h => h.lines.length))), nh2, nl2⟩ := by
  have step : runCount (fileEvents f) (⟨nf, mh, ml, nh, nl⟩ : CountPayload) =
      runCount (hunksEvents f.hunks) (git2r_diff_count_file_cb ⟨nf, mh, ml, nh, nl⟩) := by
    simp [fileEvents, runCount, countStep]
  rw [step, count_file_cb_eq]
  obtain ⟨nl2, hrec⟩ := runCount_hunks f.hunks (nf + 1) mh ml 0 0 (Nat.zero_le _)
  refine ⟨0 + f.hunks.length, nl2, ?_⟩
  rw [hrec]
  rw [CountPayload.mk.injEq]
  refine ⟨?_, ?_, ?_, ?_, ?_⟩
  all_goals omega

theorem runCount_diff (d : Diff) (nf mh ml nh nl : Nat) :
    ∃ nh2 nl2, runCount (diffEvents d) ⟨nf, mh, ml, nh, nl⟩ =
      ⟨nf + d.length, max mh (specMaxHunks d), max ml (specMaxLines d), nh2, nl2⟩ := by
  induction d generalizing nf mh ml nh nl with
  | nil =>
    refine ⟨nh, nl, ?_⟩
    simp only [diffEvents, runCount, List.foldl_nil, specMaxHunks, specMaxLines,
      List.map_nil, listMax, List.length_nil]
    rw [CountPayload.mk.injEq]
    refine ⟨?_, ?_, ?_, ?_, ?_⟩
    all_goals omega
  | cons f fs ih =>
    have step : runCount (diffEvents (f :: fs)) (⟨nf, mh, ml, nh, nl⟩ : CountPayload) =
        runCount (diffEvents fs) (runCount (fileEvents f) ⟨nf, mh, ml, nh, nl⟩) := by
      simp [diffEvents, runCount_append]
    obtain ⟨nh1, nl1, h1⟩ := runCount_file f nf mh ml nh nl
    rw [step, h1]
    obtain ⟨nh2, nl2, h2⟩ := ih (nf + 1) (max mh f.hunks.length)
      (max ml (listMax (f.hunks.map (fun h => h.lines.length)))) nh1 nl1
    refine ⟨nh2, nl2, ?_⟩
    rw [h2]
    simp only [specMaxHunks, specMaxLines, List.map_cons, listMax, List.length_cons]
    rw [CountPayload.mk.injEq]
    refine ⟨?_, ?_, ?_, ?_, ?_⟩
    all_goals omega

theorem count_exact_spec (d : Diff) :
    git2r_diff_count d none =
      Except.ok (specNumFiles d, specMaxHunks d, specMaxLines d) := by
  obtain ⟨nh, nl, h⟩ := runCount_diff d 0 0 0 0 0
  simp [git2r_diff_count, h, specNumFiles]

/-- Claim C1: on a successful traversal, git2r_diff_count returns 0 (the
Except.ok constructor) and reports exactly the file count, the maximum
per-file hunk count, and the maximum per-hunk line count of the diff. -/
theorem git2r_diff_count_exact (d : Diff) :
    git2r_diff_count d none =
      Except.ok (specNumFiles d, specMaxHunks d, specMaxLines d) :=
  count_exact_spec d

/-! ## The materializing pass (git2r_diff_format_to_r and its callbacks) -/

/-- The R S4 object git_diff_line as filled in by git2r_diff_get_line_cb. -/
structure RLine where
  origin : Int
  old_lineno : Int
  new_lineno : Int
  num_lines : Int
  content : String
deriving DecidableEq

/-- The R S4 object git_diff_hunk as filled in by git2r_diff_get_hunk_cb.
The lines slot holds an R list whose cells may be R_NilValue (none) when a
slot of the staging vector was never written. -/
structure RHunk where
  old_start : Int
  old_lines : Int
  new_start : Int
  new_lines : Int
  header : String
  lines : List (Option RLine)
deriving DecidableEq

/-- The R S4 object git_diff_file as filled in by git2r_diff_get_file_cb. -/
structure RFile where
  old_file : String
  new_file : String
  hunks : List (Option RHunk)
deriving DecidableEq

/-- The git2r_diff_payload structure: the result vector, the two staging
vectors and the three staging indices. -/
structure GetPayload where
  result : List (Option RFile)
  hunk_tmp : List (Option RHunk)
  line_tmp : List (Option RLine)
  file_ptr : Nat
  hunk_ptr : Nat
  line_ptr : Nat
deriving DecidableEq

/-- The fresh git_diff_line object built by the line callback (a NEW_OBJECT
followed by SET_SLOT on each field; the content is the copied buffer). -/
def mkRLine (l : LineInfo) : RLine :=
  ⟨l.origin, l.old_lineno, l.new_lineno, l.num_lines, l.content⟩

/-- The fresh git_diff_hunk object built by the hunk callback; its lines
slot is still the prototype empty list. -/
def mkRHunk (h : HunkInfo) : RHunk :=
  ⟨h.old_start, h.old_lines, h.new_start, h.new_lines, h.header, []⟩

/-- The fresh git_diff_file object built by the file callback; its hunks
slot is still the prototype empty list. -/
def mkRFile (dl : DeltaInfo) : RFile :=
  ⟨dl.old_path, dl.new_path, []⟩

/-- A line staging cell holding a fully populated line object. -/
def rLineCell (l : LineInfo) : Option RLine := some (mkRLine l)

/-- A fully committed hunk: the hunk object with its lines slot set to the
exactly-sized copy of the line staging buffer. -/
def rHunkOf (h : Hunk) : RHunk :=
  { mkRHunk h.info with lines := h.lines.map rLineCell }

/-- A hunk staging cell holding a fully committed hunk. -/
def rHunkCell (h : Hunk) : Option RHunk := some (rHunkOf h)

/-- A fully committed file: the file object with its hunks slot set to the
exactly-sized copy of the hunk staging buffer. -/
def rFileOf (f : FileD) : RFile :=
  { mkRFile f.delta with hunks := f.hunks.map rHunkCell }

/-- A result cell holding a fully committed file. -/
def rFileCell (f : FileD) : Option RFile := some (rFileOf f)

/-- SET_SLOT of the lines slot of the hunk object stored at index i of the
hunk staging vector (the C code indexes an existing object; an unwritten
R_NilValue cell would be a type error there, embedded as a no-op). -/
def setLinesAt (buf : List (Option RHunk)) (i : Nat) (ls : List (Option RLine)) :
    List (Option RHunk) :=
  buf.set i (match buf.getD i none with
             | some hk => some { hk with lines := ls }
             | none => none)

/-- SET_SLOT of the hunks slot of the file object stored at index i of the
result vector. -/
def setHunksAt (res : List (Option RFile)) (i : Nat) (hs : List (Option RHunk)) :
    List (Option RFile) :=
  res.set i (match res.getD i none with
             | some f => some { f with hunks := hs }
             | none => none)

/-- Embeds git2r_diff_get_hunk_cb.  First, if a hunk is in progress, commit
the collected lines (line_tmp up to line_ptr) into that hunk.  Then, for a
non-null hunk, store a fresh hunk object at hunk_ptr, advance hunk_ptr and
reset line_ptr. -/
def git2r_diff_get_hunk_cb (hunk : Option HunkInfo) (p : GetPayload) : GetPayload :=
  let p1 := if p.hunk_ptr ≠ 0 then
      { p with hunk_tmp := setLinesAt p.hunk_tmp (p.hunk_ptr - 1) (p.line_tmp.take p.line_ptr) }
    else p
  match hunk with
  | some h =>
      { p1 with hunk_tmp := p1.hunk_tmp.set p1.hunk_ptr (some (mkRHunk h)),
                hunk_ptr := p1.hunk_ptr + 1,
                line_ptr := 0 }
  | none => p1

/-- Embeds git2r_diff_get_file_cb.  First flush the in-progress hunk by
calling the hunk callback with a null hunk; then, if a file is in progress,
commit the collected hunks (hunk_tmp up to hunk_ptr) into that file; then,
for a non-null delta, store a fresh file object at file_ptr, advance
file_ptr and reset hunk_ptr and line_ptr. -/
def git2r_diff_get_file_cb (delta : Option DeltaInfo) (p : GetPayload) : GetPayload :=
  let p1 := git2r_diff_get_hunk_cb none p
  let p2 := if p1.file_ptr ≠ 0 then
      { p1 with result := setHunksAt p1.result (p1.file_ptr - 1) (p1.hunk_tmp.take p1.hunk_ptr) }
    else p1
  match delta with
  | some dl =>
      { p2 with result := p2.result.set p2.file_ptr (some (mkRFile dl)),
                file_ptr := p2.file_ptr + 1,
                hunk_ptr := 0,
                line_ptr := 0 }
  | none => p2

/-- Embeds git2r_diff_get_line_cb: store a fresh line object at line_ptr
and post-increment line_ptr. -/
def git2r_diff_get_line_cb (l : LineInfo) (p : GetPayload) : GetPayload :=
  { p with line_tmp := p.line_tmp.set p.line_ptr (rLineCell l),
           line_ptr := p.line_ptr + 1 }

/-- Dispatch of one traversal event to the materializing callbacks. -/
def getStep (p : GetPayload) : DiffEvent → GetPayload
  | .file dl => git2r_diff_get_file_cb (some dl) p
  | .hunk h => git2r_diff_get_hunk_cb (some h) p
  | .line l => git2r_diff_get_line_cb l p

/-- The materializing traversal over an event stream. -/
def runGet (evs : List DiffEvent) (p : GetPayload) : GetPayload :=
  evs.foldl getStep p

/-- The payload as git2r_diff_format_to_r initializes it: result, hunk_tmp
and line_tmp freshly allocated with the three bounds from the counting
pass (allocVector fills every cell with R_NilValue), all pointers zero. -/
def initGetPayload (nf mh ml : Nat) : GetPayload :=
  ⟨List.replicate nf none, List.replicate mh none, List.replicate ml none, 0, 0, 0⟩

/-- Embeds git2r_diff_format_to_r: run the counting pass; on its error
return that error before any allocation; otherwise allocate the three
vectors, run the traversal, and invoke the file callback one extra time
with a null delta to commit the trailing hunks and lines.  The files slot
stored into dest is the result vector. -/
def git2r_diff_format_to_r (d : Diff) (traversalErr : Option Int) :
    Except Int (List (Option RFile)) :=
  match git2r_diff_count d traversalErr with
  | Except.error e => Except.error e
  | Except.ok (nf, mh, ml) =>
      Except.ok (git2r_diff_get_file_cb none
        (runGet (diffEvents d) (initGetPayload nf mh ml))).result

/-! ## List helper lemmas -/

theorem set_append_len {α : Type} (a : List α) (b : α) (c : List α) (v : α) :
    (a ++ b :: c).set a.length v = a ++ v :: c := by
  induction a with
  | nil => rfl
  | cons x a ih => simp [List.set, ih]

theorem getD_append_len {α : Type} (a : List α) (b : α) (c : List α) (d : α) :
    (a ++ b :: c).getD a.length d = b := by
  induction a with
  | nil => rfl
  | cons x a ih => simpa using ih

theorem take_append_len {α : Type} (a b : List α) : (a ++ b).take a.length = a := by
  induction a with
  | nil => rfl
  | cons x a ih => simp [ih]

theorem getD_map_len {α β : Type} (f : α → β) (l : List α) (i : Nat) (h : i < l.length)
    (d1 : β) (d2 : α) : (l.map f).getD i d1 = f (l.getD i d2) := by
  induction l generalizing i with
  | nil => simp at h
  | cons x l ih =>
    cases i with
    | zero => rfl
    | succ i =>
      simp only [List.length_cons, Nat.succ_lt_succ_iff] at h
      simpa using ih i h

theorem getLast?_append_singleton {α : Type} (a : List α) (x : α) :
    (a ++ x :: []).getLast? = some x := by
  induction a with
  | nil => rfl
  | cons y a ih =>
    cases a with
    | nil => rfl
    | cons z a => simpa using ih

theorem getLast?_map_eq {α β : Type} (f : α → β) (l : List α) :
    (l.map f).getLast? = l.getLast?.map f := by
  induction l with
  | nil => rfl
  | cons x l ih =>
    cases l with
    | nil => rfl
    | cons y l => simpa using ih

theorem runGet_append (l1 l2 : List DiffEvent) (p : GetPayload) :
    runGet (l1 ++ l2) p = runGet l2 (runGet l1 p) := by
  simp [runGet, List.foldl_append]

/-! ## Materializing pass: closed forms for sub-runs -/

theorem runGet_lines (ls : List LineInfo) (res : List (Option RFile))
    (ht : List (Option RHunk)) (pre rest : List (Option RLine)) (fp hp : Nat)
    (hlen : ls.length ≤ rest.length) :
    runGet (ls.map DiffEvent.line) ⟨res, ht, pre ++ rest, fp, hp, pre.length⟩ =
      ⟨res, ht, pre ++ (ls.map rLineCell ++ rest.drop ls.length), fp, hp,
        pre.length + ls.length⟩ := by
  induction ls generalizing pre rest with
  | nil => simp [runGet]
  | cons l ls ih =>
    cases rest with
    | nil => simp at hlen
    | cons r rest =>
      have step : runGet ((l :: ls).map DiffEvent.line)
          (⟨res, ht, pre ++ r :: rest, fp, hp, pre.length⟩ : GetPayload) =
          runGet (ls.map DiffEvent.line)
            (git2r_diff_get_line_cb l ⟨res, ht, pre ++ r :: rest, fp, hp, pre.length⟩) := by
        simp [runGet, getStep]
      have cb : git2r_diff_get_line_cb l
          (⟨res, ht, pre ++ r :: rest, fp, hp, pre.length⟩ : GetPayload) =
          ⟨res, ht, (pre ++ [rLineCell l]) ++ rest, fp, hp, (pre ++ [rLineCell l]).length⟩ := by
        simp [git2r_diff_get_line_cb, set_append_len]
      rw [step, cb, ih (pre ++ [rLineCell l]) rest (by
        simp only [List.length_cons, Nat.succ_le_succ_iff] at hlen
        exact hlen)]
      rw [GetPayload.mk.injEq]
      refine ⟨rfl, rfl, ?_, rfl, rfl, ?_⟩
      · simp [List.append_assoc]
      · simp
        omega

theorem get_hunk_cb_some_mid (hi : HunkInfo) (res : List (Option RFile))
    (dh : List Hunk) (ch : Hunk) (t : Option RHunk) (tl : List (Option RHunk))
    (lt : List (Option RLine)) (fp : Nat) :
    git2r_diff_get_hunk_cb (some hi)
      ⟨res, dh.map rHunkCell ++ some (mkRHunk ch.info) :: t :: tl,
        ch.lines.map rLineCell ++ lt, fp, dh.length + 1, ch.lines.length⟩ =
      ⟨res, (dh ++ [ch]).map rHunkCell ++ some (mkRHunk hi) :: tl,
        ch.lines.map rLineCell ++ lt, fp, (dh ++ [ch]).length + 1, 0⟩ := by
  have htake : (ch.lines.map rLineCell ++ lt).take ch.lines.length = ch.lines.map rLineCell := by
    have h1 := take_append_len (ch.lines.map rLineCell) lt
    rwa [List.length_map] at h1
  have hgetD : (dh.map rHunkCell ++ some (mkRHunk ch.info) :: t :: tl).getD dh.length none =
      some (mkRHunk ch.info) := by
    have h1 := getD_append_len (dh.map rHunkCell) (some (mkRHunk ch.info)) (t :: tl) none
    rwa [List.length_map] at h1
  have hset1 : (dh.map rHunkCell ++ some (mkRHunk ch.info) :: t :: tl).set dh.length
      (rHunkCell ch) = dh.map rHunkCell ++ rHunkCell ch :: t :: tl := by
    have h1 := set_append_len (dh.map rHunkCell) (some (mkRHunk ch.info)) (t :: tl)
      (rHunkCell ch)
    rwa [List.length_map] at h1
  have hset2 : (dh.map rHunkCell ++ rHunkCell ch :: t :: tl).set (dh.length + 1)
      (some (mkRHunk hi)) = (dh ++ [ch]).map rHunkCell ++ some (mkRHunk hi) :: tl := by
    have h1 := set_append_len (dh.map rHunkCell ++ [rHunkCell ch]) t tl (some (mkRHunk hi))
    simp only [List.length_append, List.length_map, List.length_cons, List.length_nil,
      List.append_assoc, List.cons_append, List.nil_append] at h1
    simp only [List.map_append, List.map_cons, List.map_nil, List.append_assoc,
      List.cons_append, List.nil_append]
    exact h1
  have hcell : (some { mkRHunk ch.info with
      lines := (ch.lines.map rLineCell ++ lt).take ch.lines.length } : Option RHunk) =
      rHunkCell ch := by
    rw [htake]
    rfl
  simp only [git2r_diff_get_hunk_cb, setLinesAt, Nat.add_sub_cancel, ne_eq,
    Nat.add_one_ne_zero, not_false_eq_true, if_true, hgetD, hcell, hset1, hset2]
  all_goals rw [GetPayload.mk.injEq]
  all_goals refine ⟨rfl, rfl, rfl, rfl, ?_, rfl⟩
  all_goals simp

theorem runGet_lines_zero (ls : List LineInfo) (res : List (Option RFile))
    (ht : List (Option RHunk)) (rest : List (Option RLine)) (fp hp : Nat)
    (hlen : ls.length ≤ rest.length) :
    runGet (ls.map DiffEvent.line) ⟨res, ht, rest, fp, hp, 0⟩ =
      ⟨res, ht, ls.map rLineCell ++ rest.drop ls.length, fp, hp, ls.length⟩ := by
  have h1 := runGet_lines ls res ht [] rest fp hp (by simpa using hlen)
  simpa using h1

theorem runGet_hunks (hs : List Hunk) (res : List (Option RFile)) (fp : Nat)
    (dh : List Hunk) (ch : Hunk) (tl : List (Option RHunk)) (lt : List (Option RLine))
    (hfit : hs.length ≤ tl.length)
    (hlines : ∀ h ∈ hs, h.lines.length ≤ ch.lines.length + lt.length) :
    ∃ dh2 ch2 tl2 lt2,
      dh2 ++ [ch2] = (dh ++ [ch]) ++ hs ∧
      dh2.length + 1 + tl2.length = dh.length + 1 + tl.length ∧
      ch2.lines.length + lt2.length = ch.lines.length + lt.length ∧
      runGet (hunksEvents hs)
        ⟨res, dh.map rHunkCell ++ some (mkRHunk ch.info) :: tl,
          ch.lines.map rLineCell ++ lt, fp, dh.length + 1, ch.lines.length⟩ =
        ⟨res, dh2.map rHunkCell ++ some (mkRHunk ch2.info) :: tl2,
          ch2.lines.map rLineCell ++ lt2, fp, dh2.length + 1, ch2.lines.length⟩ := by
  induction hs generalizing dh ch tl lt with
  | nil =>
    exact ⟨dh, ch, tl, lt, by simp, rfl, rfl, rfl⟩
  | cons h hs ih =>
    cases tl with
    | nil => simp at hfit
    | cons t tl =>
      have hev : hunksEvents (h :: hs) = hunkEvents h ++ hunksEvents hs := rfl
      rw [hev, runGet_append]
      have hev2 : runGet (hunkEvents h)
          (⟨res, dh.map rHunkCell ++ some (mkRHunk ch.info) :: t :: tl,
            ch.lines.map rLineCell ++ lt, fp, dh.length + 1, ch.lines.length⟩ : GetPayload) =
          runGet (h.lines.map DiffEvent.line)
            (git2r_diff_get_hunk_cb (some h.info)
              ⟨res, dh.map rHunkCell ++ some (mkRHunk ch.info) :: t :: tl,
                ch.lines.map rLineCell ++ lt, fp, dh.length + 1, ch.lines.length⟩) := by
        simp [hunkEvents, runGet, getStep]
      have hlen1 : h.lines.length ≤ (ch.lines.map rLineCell ++ lt).length := by
        have h2 := hlines h (List.mem_cons_self h hs)
        simp only [List.length_append, List.length_map]
        omega
      rw [hev2, get_hunk_cb_some_mid, runGet_lines_zero _ _ _ _ _ _ hlen1]
      obtain ⟨dh2, ch2, tl2, lt2, e1, e2, e3, e4⟩ := ih (dh ++ [ch]) h tl
        ((ch.lines.map rLineCell ++ lt).drop h.lines.length)
        (by simp only [List.length_cons] at hfit; omega)
        (by
          intro h2 hmem
          have h3 := hlines h2 (List.mem_cons_of_mem h hmem)
          simp only [List.length_drop, List.length_append, List.length_map]
          omega)
      refine ⟨dh2, ch2, tl2, lt2, ?_, ?_, ?_, e4⟩
      · rw [e1]
        simp [List.append_assoc]
      · simp only [List.length_append, List.length_cons, List.length_nil] at e2 ⊢
        omega
      · simp only [List.length_drop, List.length_append, List.length_map] at e3 ⊢
        simp only [List.length_append, List.length_map] at hlen1
        omega

/-- State of the materializing payload right after all events of one file
have been processed: the result vector holds the fully committed earlier
files, then the in-progress file object (hunks slot still empty), then the
untouched R_NilValue slots; the staging vectors hold the in-progress
file's hunks, with the final hunk's lines still waiting in line_tmp.  When
the file had no hunks, the staging pointers are just zero. -/
def PostFile (res : List (Option RFile)) (fp : Nat) (hs : List Hunk) (MH ML : Nat)
    (p : GetPayload) : Prop :=
  (hs = [] ∧ ∃ ht lt, ht.length = MH ∧ lt.length = ML ∧ p = ⟨res, ht, lt, fp, 0, 0⟩) ∨
  (∃ dh ch tl lt, dh ++ [ch] = hs ∧ dh.length + 1 + tl.length = MH ∧
     ch.lines.length + lt.length = ML ∧
     p = ⟨res, dh.map rHunkCell ++ some (mkRHunk ch.info) :: tl,
          ch.lines.map rLineCell ++ lt, fp, dh.length + 1, ch.lines.length⟩)

theorem runGet_hunks_post (hs : List Hunk) (res : List (Option RFile))
    (ht : List (Option RHunk)) (lt : List (Option RLine)) (fp : Nat)
    (hMH : hs.length ≤ ht.length) (hML : ∀ h ∈ hs, h.lines.length ≤ lt.length) :
    PostFile res fp hs ht.length lt.length
      (runGet (hunksEvents hs) ⟨res, ht, lt, fp, 0, 0⟩) := by
  cases hs with
  | nil =>
    left
    exact ⟨rfl, ht, lt, rfl, rfl, rfl⟩
  | cons h hs =>
    right
    cases ht with
    | nil => simp at hMH
    | cons t ht =>
      have hev : hunksEvents (h :: hs) = hunkEvents h ++ hunksEvents hs := rfl
      rw [hev, runGet_append]
      have hev2 : runGet (hunkEvents h) (⟨res, t :: ht, lt, fp, 0, 0⟩ : GetPayload) =
          runGet (h.lines.map DiffEvent.line)
            (git2r_diff_get_hunk_cb (some h.info) ⟨res, t :: ht, lt, fp, 0, 0⟩) := by
        simp [hunkEvents, runGet, getStep]
      have cb : git2r_diff_get_hunk_cb (some h.info)
          (⟨res, t :: ht, lt, fp, 0, 0⟩ : GetPayload) =
          ⟨res, some (mkRHunk h.info) :: ht, lt, fp, 1, 0⟩ := by
        simp [git2r_diff_get_hunk_cb]
      have hlen1 : h.lines.length ≤ lt.length := hML h (List.mem_cons_self h hs)
      rw [hev2, cb, runGet_lines_zero _ _ _ _ _ _ hlen1]
      obtain ⟨dh2, ch2, tl2, lt2, e1, e2, e3, e4⟩ := runGet_hunks hs res fp [] h ht
        (lt.drop h.lines.length)
        (by simp only [List.length_cons] at hMH; omega)
        (by
          intro h2 hmem
          have h3 := hML h2 (List.mem_cons_of_mem h hmem)
          simp only [List.length_drop]
          omega)
      simp only [List.map_nil, List.nil_append, List.length_nil, Nat.zero_add] at e1 e2 e4
      rw [e4]
      refine ⟨dh2, ch2, tl2, lt2, by simpa using e1, ?_, ?_, rfl⟩
      · simp only [List.length_cons]
        omega
      · simp only [List.length_drop] at e3
        omega

theorem get_hunk_cb_flush (res : List (Option RFile)) (fp : Nat) (hs : List Hunk)
    (MH ML : Nat) (p : GetPayload) (hpf : PostFile res fp hs MH ML p) :
    ∃ tl, hs.length + tl.length = MH ∧ p.line_tmp.length = ML ∧
      git2r_diff_get_hunk_cb none p =
        ⟨res, hs.map rHunkCell ++ tl, p.line_tmp, fp, hs.length, p.line_ptr⟩ := by
  rcases hpf with ⟨hnil, ht, lt, hht, hlt, hp⟩ | ⟨dh, ch, tl, lt, hacc, hMH2, hML2, hp⟩
  · subst hnil
    subst hp
    refine ⟨ht, by simpa using hht, by simpa using hlt, ?_⟩
    simp [git2r_diff_get_hunk_cb]
  · subst hp
    subst hacc
    have htake : (ch.lines.map rLineCell ++ lt).take ch.lines.length =
        ch.lines.map rLineCell := by
      have h1 := take_append_len (ch.lines.map rLineCell) lt
      rwa [List.length_map] at h1
    have hgetD : (dh.map rHunkCell ++ some (mkRHunk ch.info) :: tl).getD dh.length none =
        some (mkRHunk ch.info) := by
      have h1 := getD_append_len (dh.map rHunkCell) (some (mkRHunk ch.info)) tl none
      rwa [List.length_map] at h1
    have hset1 : (dh.map rHunkCell ++ some (mkRHunk ch.info) :: tl).set dh.length
        (rHunkCell ch) = dh.map rHunkCell ++ rHunkCell ch :: tl := by
      have h1 := set_append_len (dh.map rHunkCell) (some (mkRHunk ch.info)) tl (rHunkCell ch)
      rwa [List.length_map] at h1
    have hcell : (some { mkRHunk ch.info with
        lines := (ch.lines.map rLineCell ++ lt).take ch.lines.length } : Option RHunk) =
        rHunkCell ch := by
      rw [htake]; rfl
    refine ⟨tl, ?_, ?_, ?_⟩
    · simp only [List.length_append, List.length_cons, List.length_nil]
      omega
    · simp only [List.length_append, List.length_map]
      omega
    · simp only [git2r_diff_get_hunk_cb, setLinesAt, Nat.add_sub_cancel, ne_eq,
        Nat.add_one_ne_zero, not_false_eq_true, if_true, hgetD, hcell, hset1]
      rw [GetPayload.mk.injEq]
      refine ⟨rfl, ?_, rfl, rfl, ?_, rfl⟩
      · simp [List.map_append]
      · simp

theorem get_file_cb_next (nd : DeltaInfo) (doneF : List FileD) (curF : FileD)
    (m MH ML : Nat) (p : GetPayload)
    (hpf : PostFile
        (doneF.map rFileCell ++ some (mkRFile curF.delta) :: List.replicate (m + 1) none)
        (doneF.length + 1) curF.hunks MH ML p) :
    ∃ ht lt, ht.length = MH ∧ lt.length = ML ∧
      git2r_diff_get_file_cb (some nd) p =
        ⟨(doneF ++ [curF]).map rFileCell ++ some (mkRFile nd) :: List.replicate m none,
          ht, lt, (doneF ++ [curF]).length + 1, 0, 0⟩ := by
  obtain ⟨tl, htl, hltl, hcb⟩ := get_hunk_cb_flush _ _ _ _ _ p hpf
  have htake : (curF.hunks.map rHunkCell ++ tl).take curF.hunks.length =
      curF.hunks.map rHunkCell := by
    have h1 := take_append_len (curF.hunks.map rHunkCell) tl
    rwa [List.length_map] at h1
  have hgetD : (doneF.map rFileCell ++ some (mkRFile curF.delta) ::
      List.replicate (m + 1) none).getD doneF.length none = some (mkRFile curF.delta) := by
    have h1 := getD_append_len (doneF.map rFileCell) (some (mkRFile curF.delta))
      (List.replicate (m + 1) none) none
    rwa [List.length_map] at h1
  have hset1 : (doneF.map rFileCell ++ some (mkRFile curF.delta) ::
      List.replicate (m + 1) none).set doneF.length (rFileCell curF) =
      doneF.map rFileCell ++ rFileCell curF :: List.replicate (m + 1) none := by
    have h1 := set_append_len (doneF.map rFileCell) (some (mkRFile curF.delta))
      (List.replicate (m + 1) none) (rFileCell curF)
    rwa [List.length_map] at h1
  have hcell : (some { mkRFile curF.delta with
      hunks := (curF.hunks.map rHunkCell ++ tl).take curF.hunks.length } : Option RFile) =
      rFileCell curF := by
    rw [htake]; rfl
  have hset2 : (doneF.map rFileCell ++ rFileCell curF :: List.replicate (m + 1) none).set
      (doneF.length + 1) (some (mkRFile nd)) =
      (doneF ++ [curF]).map rFileCell ++ some (mkRFile nd) :: List.replicate m none := by
    have h1 := set_append_len (doneF.map rFileCell ++ [rFileCell curF]) none
      (List.replicate m none) (some (mkRFile nd))
    simp only [List.length_append, List.length_map, List.length_cons, List.length_nil,
      List.append_assoc, List.cons_append, List.nil_append] at h1
    simp only [List.map_append, List.map_cons, List.map_nil, List.append_assoc,
      List.cons_append, List.nil_append]
    rw [List.replicate_succ]
    exact h1
  refine ⟨curF.hunks.map rHunkCell ++ tl, p.line_tmp, ?_, hltl, ?_⟩
  · simp only [List.length_append, List.length_map]
    omega
  · simp only [git2r_diff_get_file_cb, hcb, Nat.add_sub_cancel, ne_eq,
      Nat.add_one_ne_zero, not_false_eq_true, if_true, setHunksAt, hgetD, hcell, hset1, hset2]
    rw [GetPayload.mk.injEq]
    refine ⟨rfl, rfl, rfl, ?_, rfl, rfl⟩
    simp

theorem get_file_cb_final (doneF : List FileD) (curF : FileD) (MH ML : Nat) (p : GetPayload)
    (hpf : PostFile (doneF.map rFileCell ++ some (mkRFile curF.delta) :: [])
        (doneF.length + 1) curF.hunks MH ML p) :
    (git2r_diff_get_file_cb none p).result = (doneF ++ [curF]).map rFileCell := by
  obtain ⟨tl, htl, hltl, hcb⟩ := get_hunk_cb_flush _ _ _ _ _ p hpf
  have htake : (curF.hunks.map rHunkCell ++ tl).take curF.hunks.length =
      curF.hunks.map rHunkCell := by
    have h1 := take_append_len (curF.hunks.map rHunkCell) tl
    rwa [List.length_map] at h1
  have hgetD : (doneF.map rFileCell ++ some (mkRFile curF.delta) :: []).getD
      doneF.length none = some (mkRFile curF.delta) := by
    have h1 := getD_append_len (doneF.map rFileCell) (some (mkRFile curF.delta)) [] none
    rwa [List.length_map] at h1
  have hset1 : (doneF.map rFileCell ++ some (mkRFile curF.delta) :: []).set doneF.length
      (rFileCell curF) = doneF.map rFileCell ++ rFileCell curF :: [] := by
    have h1 := set_append_len (doneF.map rFileCell) (some (mkRFile curF.delta)) []
      (rFileCell curF)
    rwa [List.length_map] at h1
  have hcell : (some { mkRFile curF.delta with
      hunks := (curF.hunks.map rHunkCell ++ tl).take curF.hunks.length } : Option RFile) =
      rFileCell curF := by
    rw [htake]; rfl
  simp only [git2r_diff_get_file_cb, hcb, Nat.add_sub_cancel, ne_eq,
    Nat.add_one_ne_zero, not_false_eq_true, if_true, setHunksAt, hgetD, hcell, hset1]
  simp [List.map_append]

theorem runGet_one_file (f : FileD) (doneF : List FileD) (curF : FileD) (m MH ML : Nat)
    (p : GetPayload)
    (hpf : PostFile
        (doneF.map rFileCell ++ some (mkRFile curF.delta) :: List.replicate (m + 1) none)
        (doneF.length + 1) curF.hunks MH ML p)
    (hMH : f.hunks.length ≤ MH) (hML : ∀ h ∈ f.hunks, h.lines.length ≤ ML) :
    PostFile ((doneF ++ [curF]).map rFileCell ++ some (mkRFile f.delta) ::
        List.replicate m none)
      ((doneF ++ [curF]).length + 1) f.hunks MH ML (runGet (fileEvents f) p) := by
  obtain ⟨ht, lt, hhl, hll, hcb⟩ := get_file_cb_next f.delta doneF curF m MH ML p hpf
  have hev : runGet (fileEvents f) p =
      runGet (hunksEvents f.hunks) (git2r_diff_get_file_cb (some f.delta) p) := by
    simp [fileEvents, runGet, getStep]
  rw [hev, hcb]
  have h1 := runGet_hunks_post f.hunks
    ((doneF ++ [curF]).map rFileCell ++ some (mkRFile f.delta) :: List.replicate m none)
    ht lt ((doneF ++ [curF]).length + 1)
    (by rw [hhl]; exact hMH) (by intro h hm; rw [hll]; exact hML h hm)
  rw [hhl, hll] at h1
  exact h1

theorem runGet_first_file (f : FileD) (N MH ML : Nat)
    (hMH : f.hunks.length ≤ MH) (hML : ∀ h ∈ f.hunks, h.lines.length ≤ ML) :
    PostFile (some (mkRFile f.delta) :: List.replicate N none) 1 f.hunks MH ML
      (runGet (fileEvents f) (initGetPayload (N + 1) MH ML)) := by
  have hcb : git2r_diff_get_file_cb (some f.delta) (initGetPayload (N + 1) MH ML) =
      ⟨some (mkRFile f.delta) :: List.replicate N none, List.replicate MH none,
        List.replicate ML none, 1, 0, 0⟩ := by
    simp [initGetPayload, git2r_diff_get_file_cb, git2r_diff_get_hunk_cb,
      List.replicate_succ]
  have hev : runGet (fileEvents f) (initGetPayload (N + 1) MH ML) =
      runGet (hunksEvents f.hunks)
        (git2r_diff_get_file_cb (some f.delta) (initGetPayload (N + 1) MH ML)) := by
    simp [fileEvents, runGet, getStep]
  rw [hev, hcb]
  have h1 := runGet_hunks_post f.hunks (some (mkRFile f.delta) :: List.replicate N none)
    (List.replicate MH none) (List.replicate ML none) 1
    (by simpa using hMH) (by intro h hm; simpa using hML h hm)
  simpa using h1

theorem runGet_files (fs : List FileD) (doneF : List FileD) (curF : FileD) (m MH ML : Nat)
    (p : GetPayload)
    (hpf : PostFile (doneF.map rFileCell ++ some (mkRFile curF.delta) ::
        List.replicate m none)
      (doneF.length + 1) curF.hunks MH ML p)
    (hm : fs.length ≤ m)
    (hMH : ∀ f ∈ fs, f.hunks.length ≤ MH)
    (hML : ∀ f ∈ fs, ∀ h ∈ f.hunks, h.lines.length ≤ ML) :
    ∃ doneF2 curF2,
      doneF2 ++ [curF2] = doneF ++ curF :: fs ∧
      PostFile (doneF2.map rFileCell ++ some (mkRFile curF2.delta) ::
          List.replicate (m - fs.length) none)
        (doneF2.length + 1) curF2.hunks MH ML (runGet (diffEvents fs) p) := by
  induction fs generalizing doneF curF m p with
  | nil =>
    refine ⟨doneF, curF, by simp, ?_⟩
    simpa [diffEvents, runGet] using hpf
  | cons f fs ih =>
    cases m with
    | zero => simp at hm
    | succ m =>
      have hev : diffEvents (f :: fs) = fileEvents f ++ diffEvents fs := rfl
      rw [hev, runGet_append]
      have h1 := runGet_one_file f doneF curF m MH ML p hpf
        (hMH f (List.mem_cons_self f fs)) (hML f (List.mem_cons_self f fs))
      obtain ⟨doneF2, curF2, e1, e2⟩ := ih (doneF ++ [curF]) f m (runGet (fileEvents f) p) h1
        (by simp only [List.length_cons] at hm; omega)
        (fun f2 hm2 => hMH f2 (List.mem_cons_of_mem f hm2))
        (fun f2 hm2 => hML f2 (List.mem_cons_of_mem f hm2))
      refine ⟨doneF2, curF2, ?_, ?_⟩
      · rw [e1]
        simp
      · simpa only [List.length_cons, Nat.succ_sub_succ] using e2

/-- Every state satisfying the post-file invariant carries the stated
result vector. -/
theorem postFile_result (res : List (Option RFile)) (fp : Nat) (hs : List Hunk)
    (MH ML : Nat) (p : GetPayload) (h : PostFile res fp hs MH ML p) : p.result = res := by
  rcases h with ⟨h1, ht, lt, h2, h3, hp⟩ | ⟨dh, ch, tl, lt, h2, h3, h4, hp⟩
  · subst hp
    rfl
  · subst hp
    rfl

/-- Running the materializing traversal over the full event stream of a
nonempty diff ends in the post-file state of its last file: every earlier
file fully committed, the last file still the prototype object with its
hunks and lines waiting in the staging buffers. -/
theorem runGet_whole_diff (f : FileD) (fs : List FileD) :
    ∃ doneF2 curF2, doneF2 ++ [curF2] = f :: fs ∧
      PostFile (doneF2.map rFileCell ++ some (mkRFile curF2.delta) :: [])
        (doneF2.length + 1) curF2.hunks (specMaxHunks (f :: fs)) (specMaxLines (f :: fs))
        (runGet (diffEvents (f :: fs))
          (initGetPayload (fs.length + 1) (specMaxHunks (f :: fs))
            (specMaxLines (f :: fs)))) := by
  have hMH : ∀ f2 ∈ f :: fs, f2.hunks.length ≤ specMaxHunks (f :: fs) := by
    intro f2 hm
    exact le_listMax_of_mem (List.mem_map_of_mem (fun g => g.hunks.length) hm)
  have hML : ∀ f2 ∈ f :: fs, ∀ h ∈ f2.hunks, h.lines.length ≤ specMaxLines (f :: fs) := by
    intro f2 hm h hm2
    have h1 : h.lines.length ≤ listMax (f2.hunks.map (fun h2 => h2.lines.length)) :=
      le_listMax_of_mem (List.mem_map_of_mem (fun h2 => h2.lines.length) hm2)
    have h2 : listMax (f2.hunks.map (fun h2 => h2.lines.length)) ≤ specMaxLines (f :: fs) :=
      le_listMax_of_mem
        (List.mem_map_of_mem (fun g => listMax (g.hunks.map (fun h2 => h2.lines.length))) hm)
    omega
  have h0 := runGet_first_file f fs.length (specMaxHunks (f :: fs)) (specMaxLines (f :: fs))
    (hMH f (List.mem_cons_self f fs)) (hML f (List.mem_cons_self f fs))
  obtain ⟨doneF2, curF2, e1, e2⟩ := runGet_files fs [] f fs.length
    (specMaxHunks (f :: fs)) (specMaxLines (f :: fs))
    (runGet (fileEvents f) (initGetPayload (fs.length + 1) (specMaxHunks (f :: fs))
      (specMaxLines (f :: fs))))
    (by
      simp only [List.map_nil, List.nil_append, List.length_nil, Nat.zero_add]
      exact h0)
    (Nat.le_refl _)
    (fun f2 hm2 => hMH f2 (List.mem_cons_of_mem f hm2))
    (fun f2 hm2 => hML f2 (List.mem_cons_of_mem f hm2))
  simp only [Nat.sub_self, List.replicate_zero] at e2
  refine ⟨doneF2, curF2, by simpa using e1, ?_⟩
  have hev : diffEvents (f :: fs) = fileEvents f ++ diffEvents fs := rfl
  rw [hev, runGet_append]
  exact e2

/-- Full functional correctness of the materializing pass: on a successful
traversal, git2r_diff_format_to_r produces exactly one fully committed
file object per file delta, in traversal order. -/
theorem format_materializes (d : Diff) :
    git2r_diff_format_to_r d none = Except.ok (d.map rFileCell) := by
  cases d with
  | nil => rfl
  | cons f fs =>
    obtain ⟨doneF2, curF2, e1, e2⟩ := runGet_whole_diff f fs
    have hfinal := get_file_cb_final doneF2 curF2 (specMaxHunks (f :: fs))
      (specMaxLines (f :: fs)) _ e2
    rw [e1] at hfinal
    have hc := count_exact_spec (f :: fs)
    simp only [git2r_diff_format_to_r, hc, specNumFiles, List.length_cons]
    rw [hfinal]

/-! ## Staging pointer bounds (the get pass mirrors the count pass counters) -/

theorem get_file_cb_some_ptr_eq (dl : DeltaInfo) (p : GetPayload) :
    (git2r_diff_get_file_cb (some dl) p).file_ptr = p.file_ptr + 1 ∧
    (git2r_diff_get_file_cb (some dl) p).hunk_ptr = 0 ∧
    (git2r_diff_get_file_cb (some dl) p).line_ptr = 0 := by
  simp only [git2r_diff_get_file_cb, git2r_diff_get_hunk_cb]
  split
  all_goals split
  all_goals simp

theorem get_hunk_cb_some_ptr_eq (hi : HunkInfo) (p : GetPayload) :
    (git2r_diff_get_hunk_cb (some hi) p).file_ptr = p.file_ptr ∧
    (git2r_diff_get_hunk_cb (some hi) p).hunk_ptr = p.hunk_ptr + 1 ∧
    (git2r_diff_get_hunk_cb (some hi) p).line_ptr = 0 := by
  simp only [git2r_diff_get_hunk_cb]
  split
  all_goals simp

theorem get_line_cb_ptr_eq (l : LineInfo) (p : GetPayload) :
    (git2r_diff_get_line_cb l p).file_ptr = p.file_ptr ∧
    (git2r_diff_get_line_cb l p).hunk_ptr = p.hunk_ptr ∧
    (git2r_diff_get_line_cb l p).line_ptr = p.line_ptr + 1 := by
  simp [git2r_diff_get_line_cb]

/-- At every point of the traversal the staging indices of the
materializing pass coincide with the counters of the counting pass. -/
theorem get_count_ptr_sim (evs : List DiffEvent) (p : GetPayload) (n : CountPayload)
    (h1 : p.file_ptr = n.num_files) (h2 : p.hunk_ptr = n.num_hunks)
    (h3 : p.line_ptr = n.num_lines) :
    (runGet evs p).file_ptr = (runCount evs n).num_files ∧
    (runGet evs p).hunk_ptr = (runCount evs n).num_hunks ∧
    (runGet evs p).line_ptr = (runCount evs n).num_lines := by
  induction evs generalizing p n with
  | nil => exact ⟨h1, h2, h3⟩
  | cons e evs ih =>
    rw [show runGet (e :: evs) p = runGet evs (getStep p e) from rfl,
      show runCount (e :: evs) n = runCount evs (countStep n e) from rfl]
    cases n with
    | mk nf mh ml nh nl =>
      simp only at h1 h2 h3
      cases e with
      | file dl =>
        obtain ⟨a1, a2, a3⟩ := get_file_cb_some_ptr_eq dl p
        rw [show countStep (⟨nf, mh, ml, nh, nl⟩ : CountPayload) (DiffEvent.file dl) =
          git2r_diff_count_file_cb ⟨nf, mh, ml, nh, nl⟩ from rfl, count_file_cb_eq]
        apply ih
        · simp only [getStep]
          rw [a1, h1]
        · simp only [getStep]
          rw [a2]
        · simp only [getStep]
          rw [a3]
      | hunk hi =>
        obtain ⟨a1, a2, a3⟩ := get_hunk_cb_some_ptr_eq hi p
        rw [show countStep (⟨nf, mh, ml, nh, nl⟩ : CountPayload) (DiffEvent.hunk hi) =
          git2r_diff_count_hunk_cb ⟨nf, mh, ml, nh, nl⟩ from rfl, count_hunk_cb_eq]
        apply ih
        · simp only [getStep]
          rw [a1, h1]
        · simp only [getStep]
          rw [a2, h2]
        · simp only [getStep]
          rw [a3]
      | line l =>
        obtain ⟨a1, a2, a3⟩ := get_line_cb_ptr_eq l p
        rw [show countStep (⟨nf, mh, ml, nh, nl⟩ : CountPayload) (DiffEvent.line l) =
          git2r_diff_count_line_cb ⟨nf, mh, ml, nh, nl⟩ from rfl, count_line_cb_eq]
        apply ih
        · simp only [getStep]
          rw [a1, h1]
        · simp only [getStep]
          rw [a2, h2]
        · simp only [getStep]
          rw [a3, h3]

/-- The counting pass keeps its running counters below its running maxima. -/
theorem runCount_counter_le (evs : List DiffEvent) (n : CountPayload)
    (h1 : n.num_hunks ≤ n.max_hunks) (h2 : n.num_lines ≤ n.max_lines) :
    (runCount evs n).num_hunks ≤ (runCount evs n).max_hunks ∧
    (runCount evs n).num_lines ≤ (runCount evs n).max_lines := by
  induction evs generalizing n with
  | nil => exact ⟨h1, h2⟩
  | cons e evs ih =>
    rw [show runCount (e :: evs) n = runCount evs (countStep n e) from rfl]
    cases n with
    | mk nf mh ml nh nl =>
      cases e with
      | file dl =>
        rw [show countStep (⟨nf, mh, ml, nh, nl⟩ : CountPayload) (DiffEvent.file dl) =
          git2r_diff_count_file_cb ⟨nf, mh, ml, nh, nl⟩ from rfl, count_file_cb_eq]
        exact ih _ (Nat.zero_le _) (Nat.zero_le _)
      | hunk hi =>
        rw [show countStep (⟨nf, mh, ml, nh, nl⟩ : CountPayload) (DiffEvent.hunk hi) =
          git2r_diff_count_hunk_cb ⟨nf, mh, ml, nh, nl⟩ from rfl, count_hunk_cb_eq]
        exact ih _ (by simp) (Nat.zero_le _)
      | line l =>
        rw [show countStep (⟨nf, mh, ml, nh, nl⟩ : CountPayload) (DiffEvent.line l) =
          git2r_diff_count_line_cb ⟨nf, mh, ml, nh, nl⟩ from rfl, count_line_cb_eq]
        simp only at h1 h2
        exact ih _ (by simp; omega) (by simp)

/-- The file counter and both maxima of the counting pass only grow. -/
theorem runCount_mono (evs : List DiffEvent) (n : CountPayload) :
    n.num_files ≤ (runCount evs n).num_files ∧
    n.max_hunks ≤ (runCount evs n).max_hunks ∧
    n.max_lines ≤ (runCount evs n).max_lines := by
  induction evs generalizing n with
  | nil => exact ⟨Nat.le_refl _, Nat.le_refl _, Nat.le_refl _⟩
  | cons e evs ih =>
    rw [show runCount (e :: evs) n = runCount evs (countStep n e) from rfl]
    cases n with
    | mk nf mh ml nh nl =>
      cases e with
      | file dl =>
        rw [show countStep (⟨nf, mh, ml, nh, nl⟩ : CountPayload) (DiffEvent.file dl) =
          git2r_diff_count_file_cb ⟨nf, mh, ml, nh, nl⟩ from rfl, count_file_cb_eq]
        obtain ⟨b1, b2, b3⟩ := ih (⟨nf + 1, mh, ml, 0, 0⟩ : CountPayload)
        simp only at b1 b2 b3 ⊢
        exact ⟨by omega, b2, b3⟩
      | hunk hi =>
        rw [show countStep (⟨nf, mh, ml, nh, nl⟩ : CountPayload) (DiffEvent.hunk hi) =
          git2r_diff_count_hunk_cb ⟨nf, mh, ml, nh, nl⟩ from rfl, count_hunk_cb_eq]
        obtain ⟨b1, b2, b3⟩ := ih (⟨nf, max mh (nh + 1), ml, nh + 1, 0⟩ : CountPayload)
        simp only at b1 b2 b3 ⊢
        exact ⟨b1, by omega, b3⟩
      | line l =>
        rw [show countStep (⟨nf, mh, ml, nh, nl⟩ : CountPayload) (DiffEvent.line l) =
          git2r_diff_count_line_cb ⟨nf, mh, ml, nh, nl⟩ from rfl, count_line_cb_eq]
        obtain ⟨b1, b2, b3⟩ := ih (⟨nf, mh, max ml (nl + 1), nh, nl + 1⟩ : CountPayload)
        simp only at b1 b2 b3 ⊢
        exact ⟨b1, b2, by omega⟩

/-- Claim C4: throughout the materializing pass, at every callback
invocation (that is, after every prefix evs1 of the event stream) the
staging indices stay below the bounds the counting pass computed for the
same diff, so every staged write lands inside the pre-allocated vectors. -/
theorem git2r_diff_get_ptr_bounds (d : Diff) (nf mh ml : Nat)
    (evs1 evs2 : List DiffEvent)
    (hcount : git2r_diff_count d none = Except.ok (nf, mh, ml))
    (hsplit : diffEvents d = evs1 ++ evs2) :
    (runGet evs1 (initGetPayload nf mh ml)).file_ptr ≤ nf ∧
    (runGet evs1 (initGetPayload nf mh ml)).hunk_ptr ≤ mh ∧
    (runGet evs1 (initGetPayload nf mh ml)).line_ptr ≤ ml := by
  have hc := count_exact_spec d
  rw [hcount] at hc
  simp only [Except.ok.injEq, Prod.mk.injEq] at hc
  obtain ⟨e1, e2, e3⟩ := hc
  obtain ⟨s1, s2, s3⟩ := get_count_ptr_sim evs1 (initGetPayload nf mh ml)
    ⟨0, 0, 0, 0, 0⟩ rfl rfl rfl
  obtain ⟨i1, i2⟩ := runCount_counter_le evs1 ⟨0, 0, 0, 0, 0⟩ (Nat.le_refl 0) (Nat.le_refl 0)
  obtain ⟨m1, m2, m3⟩ := runCount_mono evs2 (runCount evs1 ⟨0, 0, 0, 0, 0⟩)
  have hfin : runCount (diffEvents d) ⟨0, 0, 0, 0, 0⟩ =
      runCount evs2 (runCount evs1 ⟨0, 0, 0, 0, 0⟩) := by
    rw [hsplit, runCount_append]
  obtain ⟨nh2, nl2, hdf⟩ := runCount_diff d 0 0 0 0 0
  rw [hdf] at hfin
  have c1 : (runCount evs2 (runCount evs1 (⟨0, 0, 0, 0, 0⟩ : CountPayload))).num_files =
      0 + d.length := by rw [← hfin]
  have c2 : (runCount evs2 (runCount evs1 (⟨0, 0, 0, 0, 0⟩ : CountPayload))).max_hunks =
      max 0 (specMaxHunks d) := by rw [← hfin]
  have c3 : (runCount evs2 (runCount evs1 (⟨0, 0, 0, 0, 0⟩ : CountPayload))).max_lines =
      max 0 (specMaxLines d) := by rw [← hfin]
  simp only [specNumFiles] at e1
  refine ⟨?_, ?_, ?_⟩
  · omega
  · omega
  · omega

/-! ## Claim theorems for the materializing pass -/

/-- Default file used only to state getD lookups. -/
def dfltFile : FileD := ⟨⟨"", ""⟩, []⟩

/-- Default hunk used only to state getD lookups. -/
def dfltHunk : Hunk := ⟨⟨0, 0, 0, 0, ""⟩, []⟩

/-- Claim C2: for every diff, the materializing pass produces exactly one
top-level entry per file delta (res has length N), and every file i
carries exactly the hunks the traversal emitted for it, zero-hunk files
included, each hunk with exactly the lines emitted for it: the true
per-file and per-hunk counts, not the global maxima used for buffer
sizing. -/
theorem git2r_diff_materialize_counts (d : Diff) :
    ∃ res, git2r_diff_format_to_r d none = Except.ok res ∧
      res.length = specNumFiles d ∧
      ∀ i, i < d.length →
        ∃ rf, res.getD i none = some rf ∧
          rf.hunks.length = (d.getD i dfltFile).hunks.length ∧
          ∀ j, j < (d.getD i dfltFile).hunks.length →
            ∃ rh, rf.hunks.getD j none = some rh ∧
              rh.lines.length =
                ((d.getD i dfltFile).hunks.getD j dfltHunk).lines.length := by
  refine ⟨d.map rFileCell, format_materializes d, by simp [specNumFiles], ?_⟩
  intro i hi
  refine ⟨rFileOf (d.getD i dfltFile), ?_, ?_, ?_⟩
  · rw [getD_map_len rFileCell d i hi none dfltFile]
    rfl
  · simp [rFileOf, mkRFile]
  · intro j hj
    refine ⟨rHunkOf ((d.getD i dfltFile).hunks.getD j dfltHunk), ?_, ?_⟩
    · have h1 := getD_map_len rHunkCell (d.getD i dfltFile).hunks j hj none dfltHunk
      simp only [rFileOf, mkRFile]
      rw [h1]
      rfl
    · simp [rHunkOf, mkRHunk]

/-- Claim C3: for every diff whose traversal succeeds,
git2r_diff_format_to_r invokes the file callback exactly one additional
time with a null delta after the traversal (first conjunct, for every
diff), and for a nonempty diff that forced final call is what commits the
last file's trailing hunks and lines: before it the result's last slot
still holds only the prototype file object, whose hunks slot is empty
(second conjunct), and after it the slot holds the fully committed file
with all its hunks and their lines (third conjunct).  In particular a
diff whose last file has zero hunks still yields that file with a
length-0 hunk sequence (final implication). -/
theorem git2r_diff_final_flush (d : Diff) (lastf : FileD)
    (hlast : d.getLast? = some lastf) :
    git2r_diff_format_to_r d none =
      Except.ok ((git2r_diff_get_file_cb none
        (runGet (diffEvents d)
          (initGetPayload (specNumFiles d) (specMaxHunks d) (specMaxLines d)))).result) ∧
    (runGet (diffEvents d)
        (initGetPayload (specNumFiles d) (specMaxHunks d)
          (specMaxLines d))).result.getLast? = some (some (mkRFile lastf.delta)) ∧
    (∃ res, git2r_diff_format_to_r d none = Except.ok res ∧
      res.getLast? = some (some (rFileOf lastf)) ∧
      (rFileOf lastf).hunks = lastf.hunks.map rHunkCell ∧
      (lastf.hunks = [] → (rFileOf lastf).hunks = [])) := by
  cases d with
  | nil => simp at hlast
  | cons f fs =>
    obtain ⟨doneF2, curF2, e1, e2⟩ := runGet_whole_diff f fs
    have hres := postFile_result _ _ _ _ _ _ e2
    have hcur : curF2 = lastf := by
      have h1 : (doneF2 ++ [curF2]).getLast? = some curF2 :=
        getLast?_append_singleton doneF2 curF2
      rw [e1] at h1
      rw [h1] at hlast
      exact Option.some.inj hlast
    refine ⟨?_, ?_, ?_⟩
    · have hc := count_exact_spec (f :: fs)
      simp only [git2r_diff_format_to_r, hc]
    · simp only [specNumFiles, List.length_cons]
      rw [hres, ← hcur]
      exact getLast?_append_singleton _ _
    · refine ⟨(f :: fs).map rFileCell, format_materializes (f :: fs), ?_, rfl, ?_⟩
      · rw [getLast?_map_eq rFileCell (f :: fs), hlast]
        rfl
      · intro hz
        simp [rFileOf, hz]

/-! ## Output mode selection (git2r_diff_index_to_wd) -/

/-- Modelled from the spec: the patch-text rendering primitive
(git_diff_print with GIT_DIFF_FORMAT_PATCH and a buffer or file sink) is
part of the wrapped library, not of this repository.  The spec describes
it as streaming a patch-formatted rendering of the diff, file delta by
file delta, into the sink; we model the stream as the concatenation of an
arbitrary deterministic per-file rendering, which is all the claims about
it need. -/
def git_diff_print_patch (renderFile : FileD → String) (d : Diff) : String :=
  String.join (d.map renderFile)

/-- The three destinations the filename argument can select (shapes
admitted by git2r_arg_check_filename): R_NilValue, a length-0 character
vector, or a length-1 character vector. -/
inductive Filename where
  | rNil
  | emptyVec
  | path (s : String)
deriving DecidableEq

/-- Return value of a diff operation. -/
inductive DiffRetVal where
  | diffObj (old_repr new_repr : String) (files : List (Option RFile))
  | text (s : String)
  | nilValue
deriving DecidableEq

/-- Embeds the output-mode dispatch of git2r_diff_index_to_wd.  The diff
between index and workdir is computed by the wrapped library and enters
as d.  The second component of the result records the file-system effect:
fopen(filename, w+) truncates or creates the named file, and streaming
the patch rendering into it leaves exactly that text there; the first
component is the value returned to R. -/
def git2r_diff_index_to_wd (d : Diff) (renderFile : FileD → String)
    (filename : Filename) : DiffRetVal × Option (String × String) :=
  match filename with
  | Filename.rNil =>
      (match git2r_diff_format_to_r d none with
       | Except.ok res => (DiffRetVal.diffObj "index" "workdir" res, none)
       | Except.error _ => (DiffRetVal.nilValue, none))
  | Filename.emptyVec => (DiffRetVal.text (git_diff_print_patch renderFile d), none)
  | Filename.path s => (DiffRetVal.nilValue, some (s, git_diff_print_patch renderFile d))

/-- Claim C6: the destination parameter selects exactly one of three
mutually exclusive output modes: null filename gives the materialized
structured object (and touches no file), a length-0 filename gives the
patch text as a single string (and touches no file), and a length-1
filename writes the patch text to that file, overwriting it, and returns
the R null value. -/
theorem git2r_diff_output_modes (d : Diff) (renderFile : FileD → String) (s : String) :
    git2r_diff_index_to_wd d renderFile Filename.rNil =
      (DiffRetVal.diffObj "index" "workdir" (d.map rFileCell), none) ∧
    git2r_diff_index_to_wd d renderFile Filename.emptyVec =
      (DiffRetVal.text (git_diff_print_patch renderFile d), none) ∧
    git2r_diff_index_to_wd d renderFile (Filename.path s) =
      (DiffRetVal.nilValue, some (s, git_diff_print_patch renderFile d)) := by
  refine ⟨?_, rfl, rfl⟩
  simp [git2r_diff_index_to_wd, format_materializes d]

/-- Claim C9: a diff with zero files yields a result whose file sequence
has length 0 in structured mode (the terminating callback at file_ptr 0
flushes nothing and adds nothing) and the empty string in text mode. -/
theorem git2r_diff_empty_diff (renderFile : FileD → String) :
    git2r_diff_format_to_r [] none = Except.ok [] ∧
    git_diff_print_patch renderFile [] = "" :=
  ⟨rfl, rfl⟩

/-- Claim C8: when the underlying traversal fails, git2r_diff_count
returns -1 without writing the three bounds (the error carries no
triple), and git2r_diff_format_to_r propagates that error before any
allocation: the whole operation aborts with no partial result. -/
theorem git2r_diff_error_aborts (d : Diff) (e : Int) :
    git2r_diff_count d (some e) = Except.error (-1) ∧
    git2r_diff_format_to_r d (some e) = Except.error (-1) :=
  ⟨rfl, rfl⟩

/-! ## Revision resolution (git2r_revparse_single) -/

/-- The object kinds git_object_type can report for the resolved object:
blob, commit, tag and tree get their own binding classes, anything else
falls into the default branch of the switch. -/
inductive GitObjType where
  | blob
  | commit
  | tag
  | tree
  | otherKind
deriving DecidableEq

/-- Typed results of git2r_revparse_single. -/
inductive RevResult where
  | blobObj
  | commitObj
  | tagObj
  | treeObj
deriving DecidableEq

/-- The errors git2r_revparse_single can raise: the dedicated
object-not-found error (git2r_err_revparse_not_found) versus a wrapped
library error carrying the message giterr_last() reports. -/
inductive RevError where
  | errNotFound
  | errLib (msg : String)
deriving DecidableEq

/-- The GIT_ENOTFOUND error code of libgit2. -/
def GIT_ENOTFOUND : Int := -3

/-- Modelled from the spec: the message git2r_err_revparse_single defined
in git2r_error.c (not under src/), which the default switch branch sets
with giterr_set_str before raising. -/
def git2r_err_revparse_single : String :=
  "unexpected object kind from revparse"

/-- Embeds git2r_revparse_single (src/git2r_revparse.c).  The underlying
git_revparse_single resolution is external and enters as resolve; lastErr
is the message giterr_last() holds when it fails.  On success the switch
builds the object matching the resolved kind; the default branch sets the
revparse-specific message and GIT_ERROR, which the error handler then
wraps (it is not GIT_ENOTFOUND).  The handler raises the dedicated
not-found error exactly for GIT_ENOTFOUND and otherwise wraps the last
library error. -/
def git2r_revparse_single (resolve : Except Int GitObjType) (lastErr : String) :
    Except RevError RevResult :=
  match resolve with
  | Except.error e =>
      if e = GIT_ENOTFOUND then Except.error RevError.errNotFound
      else Except.error (RevError.errLib lastErr)
  | Except.ok GitObjType.blob => Except.ok RevResult.blobObj
  | Except.ok GitObjType.commit => Except.ok RevResult.commitObj
  | Except.ok GitObjType.tag => Except.ok RevResult.tagObj
  | Except.ok GitObjType.tree => Except.ok RevResult.treeObj
  | Except.ok GitObjType.otherKind => Except.error (RevError.errLib git2r_err_revparse_single)

/-- Claim C7: revision resolution returns an object typed by the resolved
kind for blob, commit, tag and tree; any other kind raises the distinct
unsupported-object-kind error (the revparse-specific message); a
not-found resolution raises the distinct object-not-found error; every
other resolution failure is wrapped as a library error, and the
not-found error differs from every wrapped error. -/
theorem git2r_revparse_single_dispatch (lastErr : String) :
    git2r_revparse_single (Except.ok GitObjType.blob) lastErr = Except.ok RevResult.blobObj ∧
    git2r_revparse_single (Except.ok GitObjType.commit) lastErr =
      Except.ok RevResult.commitObj ∧
    git2r_revparse_single (Except.ok GitObjType.tag) lastErr = Except.ok RevResult.tagObj ∧
    git2r_revparse_single (Except.ok GitObjType.tree) lastErr = Except.ok RevResult.treeObj ∧
    git2r_revparse_single (Except.ok GitObjType.otherKind) lastErr =
      Except.error (RevError.errLib git2r_err_revparse_single) ∧
    git2r_revparse_single (Except.error GIT_ENOTFOUND) lastErr =
      Except.error RevError.errNotFound ∧
    (∀ e : Int, e ≠ GIT_ENOTFOUND →
      git2r_revparse_single (Except.error e) lastErr =
        Except.error (RevError.errLib lastErr)) ∧
    (∀ msg : String, RevError.errNotFound ≠ RevError.errLib msg) := by
  refine ⟨rfl, rfl, rfl, rfl, rfl, ?_, ?_, ?_⟩
  · simp [git2r_revparse_single]
  · intro e he
    simp [git2r_revparse_single, he]
  · intro msg h
    exact RevError.noConfusion h

/-! ## The line-content buffer of git2r_diff_get_line_cb -/

/-- Size in bytes of a char pointer on the LP64 platforms this code runs
on: the expression sizeof(buffer) in git2r_diff_get_line_cb measures the
local pointer variable buffer, not the array it points to. -/
def sizeof_char_ptr : Nat := 8

/-- Capacity of the static stack buffer (static char short_buffer of 200
bytes). -/
def short_buffer_len : Nat := 200

/-- The two destinations the line callback can copy the content into. -/
inductive LineBufChoice where
  | stackBuf
  | heapBuf (size : Nat)
deriving DecidableEq

/-- Embeds the buffer selection of git2r_diff_get_line_cb: buffer starts
as short_buffer and is replaced by a malloc of content_len + 1 bytes
exactly when content_len exceeds sizeof(buffer), which is the pointer
size, not the 200-byte array capacity. -/
def lineBufChoice (content_len : Nat) : LineBufChoice :=
  if content_len > sizeof_char_ptr then LineBufChoice.heapBuf (content_len + 1)
  else LineBufChoice.stackBuf

/-- Capacity in bytes of the chosen buffer. -/
def lineBufCapacity : LineBufChoice → Nat
  | LineBufChoice.stackBuf => short_buffer_len
  | LineBufChoice.heapBuf n => n

/-- Byte offsets written by the copy: memcpy writes offsets 0 through
content_len - 1 and the nul terminator goes at offset content_len. -/
def lineWriteIdxs (content_len : Nat) : List Nat :=
  List.range (content_len + 1)

/-- Claim C5 counterexample: at content length 100 the code takes the
heap path although 100 does not exceed the 200-byte stack capacity, so
heap allocation does not happen only above the stack buffer size. -/
theorem git2r_line_buffer_counterexample :
    lineBufChoice 100 = LineBufChoice.heapBuf 101 ∧ ¬ short_buffer_len < 100 := by
  decide

/-- Claim C5 (amended): the line content is copied into the 200-byte
stack buffer only when its length is at most sizeof(char pointer) = 8;
any longer content, including lengths from 9 to 200 that would fit the
stack buffer, gets a heap buffer of content_len + 1 bytes instead. -/
theorem git2r_line_buffer_amended (len : Nat) :
    (lineBufChoice len = LineBufChoice.stackBuf ↔ len ≤ sizeof_char_ptr) ∧
    (sizeof_char_ptr < len → lineBufChoice len = LineBufChoice.heapBuf (len + 1)) := by
  by_cases h : len > sizeof_char_ptr
  · rw [lineBufChoice, if_pos h]
    refine ⟨⟨fun hc => ?_, fun hc => ?_⟩, fun _ => rfl⟩
    · simp at hc
    · omega
  · rw [lineBufChoice, if_neg h]
    refine ⟨⟨fun _ => ?_, fun _ => rfl⟩, fun hc => ?_⟩
    · omega
    · exact absurd hc h

/-- Claim C10: whenever the stack path is taken, every byte offset the
copy writes (the memcpy region and the nul terminator) is strictly below
the 200-byte capacity, because the stack path implies the content fits in
sizeof(char pointer) bytes and sizeof(char pointer) + 1 is at most 200. -/
theorem git2r_stack_writes_in_bounds (len i : Nat)
    (hstack : lineBufChoice len = LineBufChoice.stackBuf)
    (hi : i ∈ lineWriteIdxs len) :
    i < short_buffer_len ∧ sizeof_char_ptr + 1 ≤ short_buffer_len := by
  have h1 : i < len + 1 := by
    simpa [lineWriteIdxs] using hi
  have h2 : len ≤ sizeof_char_ptr := by
    by_contra hc
    simp only [not_le] at hc
    rw [lineBufChoice, if_pos hc] at hstack
    simp at hstack
  refine ⟨?_, ?_⟩
  · simp only [short_buffer_len]
    simp only [sizeof_char_ptr] at h2
    omega
  · simp [short_buffer_len, sizeof_char_ptr]

/-! ## Concrete witnesses -/

/-- A one-file, one-hunk, one-line example diff (one added line). -/
def exLine : LineInfo := ⟨43, -1, 1, 1, "new line", 8⟩

/-- The single hunk of the example diff. -/
def exHunk : Hunk := ⟨⟨1, 0, 1, 1, "@@ -1,0 +1,1 @@"⟩, [exLine]⟩

/-- The single file of the example diff. -/
def exFile : FileD := ⟨⟨"a.txt", "a.txt"⟩, [exHunk]⟩

/-- The example diff. -/
def exDiff : Diff := [exFile]

/-- A file delta that carries no hunks at all. -/
def exFileNoHunks : FileD := ⟨⟨"b.txt", "b.txt"⟩, []⟩

/-- A diff whose only (and last) file has zero hunks. -/
def exDiffNoHunks : Diff := [exFileNoHunks]

theorem git2r_diff_materialize_counts_witness :
    (0 : Nat) < exDiff.length ∧
    (0 : Nat) < (exDiff.getD 0 dfltFile).hunks.length ∧
    (∃ res, git2r_diff_format_to_r exDiff none = Except.ok res ∧
      res.length = specNumFiles exDiff ∧
      ∀ i, i < exDiff.length →
        ∃ rf, res.getD i none = some rf ∧
          rf.hunks.length = (exDiff.getD i dfltFile).hunks.length ∧
          ∀ j, j < (exDiff.getD i dfltFile).hunks.length →
            ∃ rh, rf.hunks.getD j none = some rh ∧
              rh.lines.length =
                ((exDiff.getD i dfltFile).hunks.getD j dfltHunk).lines.length) :=
  ⟨by decide, by decide, git2r_diff_materialize_counts exDiff⟩

theorem git2r_diff_final_flush_witness :
    exDiffNoHunks.getLast? = some exFileNoHunks ∧
    (git2r_diff_format_to_r exDiffNoHunks none =
        Except.ok ((git2r_diff_get_file_cb none
          (runGet (diffEvents exDiffNoHunks)
            (initGetPayload (specNumFiles exDiffNoHunks) (specMaxHunks exDiffNoHunks)
              (specMaxLines exDiffNoHunks)))).result) ∧
      (runGet (diffEvents exDiffNoHunks)
          (initGetPayload (specNumFiles exDiffNoHunks) (specMaxHunks exDiffNoHunks)
            (specMaxLines exDiffNoHunks))).result.getLast? =
        some (some (mkRFile exFileNoHunks.delta)) ∧
      (∃ res, git2r_diff_format_to_r exDiffNoHunks none = Except.ok res ∧
        res.getLast? = some (some (rFileOf exFileNoHunks)) ∧
        (rFileOf exFileNoHunks).hunks = exFileNoHunks.hunks.map rHunkCell ∧
        (exFileNoHunks.hunks = [] → (rFileOf exFileNoHunks).hunks = []))) :=
  ⟨rfl, git2r_diff_final_flush exDiffNoHunks exFileNoHunks rfl⟩

theorem git2r_diff_get_ptr_bounds_witness :
    git2r_diff_count exDiff none = Except.ok (1, 1, 1) ∧
    diffEvents exDiff = diffEvents exDiff ++ [] ∧
    ((runGet (diffEvents exDiff) (initGetPayload 1 1 1)).file_ptr ≤ 1 ∧
     (runGet (diffEvents exDiff) (initGetPayload 1 1 1)).hunk_ptr ≤ 1 ∧
     (runGet (diffEvents exDiff) (initGetPayload 1 1 1)).line_ptr ≤ 1) :=
  ⟨rfl, by simp,
    git2r_diff_get_ptr_bounds exDiff 1 1 1 (diffEvents exDiff) [] rfl (by simp)⟩

theorem git2r_revparse_single_dispatch_witness :
    ((-1 : Int) ≠ GIT_ENOTFOUND) ∧
    (git2r_revparse_single (Except.ok GitObjType.blob) "libgit2 failure" =
        Except.ok RevResult.blobObj ∧
      git2r_revparse_single (Except.ok GitObjType.commit) "libgit2 failure" =
        Except.ok RevResult.commitObj ∧
      git2r_revparse_single (Except.ok GitObjType.tag) "libgit2 failure" =
        Except.ok RevResult.tagObj ∧
      git2r_revparse_single (Except.ok GitObjType.tree) "libgit2 failure" =
        Except.ok RevResult.treeObj ∧
      git2r_revparse_single (Except.ok GitObjType.otherKind) "libgit2 failure" =
        Except.error (RevError.errLib git2r_err_revparse_single) ∧
      git2r_revparse_single (Except.error GIT_ENOTFOUND) "libgit2 failure" =
        Except.error RevError.errNotFound ∧
      (∀ e : Int, e ≠ GIT_ENOTFOUND →
        git2r_revparse_single (Except.error e) "libgit2 failure" =
          Except.error (RevError.errLib "libgit2 failure")) ∧
      (∀ msg : String, RevError.errNotFound ≠ RevError.errLib msg)) :=
  ⟨by decide, git2r_revparse_single_dispatch "libgit2 failure"⟩

theorem git2r_line_buffer_amended_witness :
    ((lineBufChoice 100 = LineBufChoice.stackBuf ↔ 100 ≤ sizeof_char_ptr) ∧
     (sizeof_char_ptr < 100 → lineBufChoice 100 = LineBufChoice.heapBuf (100 + 1))) :=
  git2r_line_buffer_amended 100

theorem git2r_stack_writes_in_bounds_witness :
    lineBufChoice 5 = LineBufChoice.stackBuf ∧
    (5 : Nat) ∈ lineWriteIdxs 5 ∧
    ((5 : Nat) < short_buffer_len ∧ sizeof_char_ptr + 1 ≤ short_buffer_len) :=
  ⟨by decide, by decide, git2r_stack_writes_in_bounds 5 5 (by decide) (by decide)⟩
